import Mathlib

/-!
Verification development for the h3-rs crate: a shallow embedding of the
wrapper code under src/ together with models of the missing H3 C core
(the crate's FFI side, crate h3-sys, ships only declarations).  Wrapper
functions are translated from the Rust source; every definition whose
doc comment starts with "Modelled from the spec:" stands for code that
is not in the repository and is written from the specification's words.
-/

/-- Modelled from the spec: an IEEE-754 double is either a finite value
(magnitude abstracted as a rational) or one of the non-finite values
NaN, +infinity, -infinity.  Only finiteness is inspected by the modelled
code paths. -/
inductive FloatM where
  | fin (q : ℚ)
  | nan
  | inf
  | ninf
  deriving DecidableEq

/-- Is the modelled double a finite value?  (Rust `f64::is_finite`.) -/
def FloatM.isFinite : FloatM → Bool
  | .fin _ => true
  | _ => false

/-- A `geo_types::Point<f64>`: `Point::new(x, y)` takes longitude `x` and
latitude `y` in degrees. -/
structure PointM where
  lng : FloatM
  lat : FloatM
  deriving DecidableEq

/-- The field view of an H3 cell identifier (mode-1 value): base cell
number and the per-resolution digit path; the cell's resolution is the
length of `digits`.  Spec section 3 gives the packed bit layout; this is
its unpacked form. -/
structure CellM where
  base : ℕ
  digits : List ℕ
  deriving DecidableEq

/-- Resolution of a cell in the field view. -/
def CellM.res (c : CellM) : ℕ := c.digits.length

/-- The `h3-rs` error enum from src/errors.rs.  The `unableToCompact`
constructor appears in src/hierarchy.rs (the error enum of that draft);
payloads carry the same data as the Rust constructors, with `H3Index`
modelled as ℕ and `Vec<H3Index>` as a list of field-view cells. -/
inductive ErrorM where
  | invalidIndexArgument (arg : ℕ)
  | incompatibleIndices (left right : ℕ)
  | unableToIndex (point : PointM)
  | unableToSerialize (index : ℕ)
  | parseIntError
  | invalidResolutionArgument (arg : ℤ)
  | unableToComputeH3Line (left right : ℕ)
  | unableToComputeTraversal (index : ℕ) (k : ℤ)
  | unableToCompact (set : List CellM)
  deriving DecidableEq

/-- Modelled from the spec: the 12 base cells (of the 122) that are
pentagons; the numbering follows the H3 base-cell table. -/
def pentagonBases : List ℕ := [4, 14, 24, 38, 49, 58, 63, 72, 83, 97, 107, 117]

/-- Modelled from the spec: the pentagon digit rule on a digit path.  A
pentagon base cell's subdivision excludes the "K" digit 6 at every level
until a non-center digit appears, so the leading non-center digit of the
path must not be 6. -/
def leadOKb : List ℕ → Bool
  | [] => true
  | d :: t => if d = 0 then leadOKb t else d != 6

/-- Well-formedness of the field view of a cell, following the validity
invariant of spec section 3: base cell in range, resolution at most 15,
every digit of the path in {0..6}, and the pentagon digit rule for
pentagon base cells. -/
def structWF (c : CellM) : Prop :=
  c.base < 122 ∧ c.digits.length ≤ 15 ∧ (∀ d ∈ c.digits, d ≤ 6) ∧
    (c.base ∈ pentagonBases → leadOKb c.digits = true)

instance (c : CellM) : Decidable (structWF c) := by
  unfold structWF; infer_instance

/-- Modelled from the spec: a cell is a pentagon exactly when its base
cell is a pentagon and every digit of its path is the center digit 0
(pentagon distortion propagates through center children only). -/
def isPentagonCellP (c : CellM) : Prop :=
  c.base ∈ pentagonBases ∧ ∀ d ∈ c.digits, d = 0

instance (c : CellM) : Decidable (isPentagonCellP c) := by
  unfold isPentagonCellP; infer_instance

/-- The 3-bit digit of packed index `n` at resolution level `i`
(1 ≤ i ≤ 15): bits `45 - 3 i` through `47 - 3 i` of the 64-bit value. -/
def digitAt (n i : ℕ) : ℕ := n / 2 ^ (45 - 3 * i) % 8

/-- The 4-bit mode field of a packed index (bits 59-62). -/
def h3Mode (n : ℕ) : ℕ := n / 2 ^ 59 % 2 ^ 4

/-- The 4-bit resolution field of a packed index (bits 52-55). -/
def h3Res (n : ℕ) : ℕ := n / 2 ^ 52 % 2 ^ 4

/-- The 7-bit base-cell field of a packed index (bits 45-51). -/
def h3BaseCellOf (n : ℕ) : ℕ := n / 2 ^ 45 % 2 ^ 7

/-- The digit path of a packed index down to its resolution field. -/
def packedDigits (n : ℕ) : List ℕ :=
  (List.range (h3Res n)).map fun j => digitAt n (j + 1)

/-- Modelled from the spec: `h3IsValid` of the missing C core.  A 64-bit
value is a valid cell iff the reserved high bit is 0, the mode marker is
the cell mode 1, the reserved bits 56-58 are 0, the base cell is a valid
index, digits at or below the resolution are none-sentinel values in
{0..6}, digits beyond the resolution are all the sentinel 7, and the
pentagon digit rule holds for pentagon base cells. -/
def h3IsValid (n : ℕ) : Bool :=
  decide (n < 2 ^ 63) && (h3Mode n == 1) && (n / 2 ^ 56 % 2 ^ 3 == 0) &&
    (h3BaseCellOf n < 122 : Bool) &&
    ((List.range 15).all fun j =>
      if j + 1 ≤ h3Res n then digitAt n (j + 1) != 7 else digitAt n (j + 1) == 7) &&
    (decide (h3BaseCellOf n ∈ pentagonBases) → leadOKb (packedDigits n))

/-- Packing of the field view into the 64-bit form: mode 1 in bits
59-62, resolution in bits 52-55, base cell in bits 45-51, the digit path
in the fifteen 3-bit slots, unused slots holding the sentinel 7. -/
def pack (c : CellM) : ℕ :=
  2 ^ 59 + c.digits.length * 2 ^ 52 + c.base * 2 ^ 45 +
    (c.digits ++ List.replicate (15 - c.digits.length) 7).foldl (fun acc d => acc * 8 + d) 0

/-- `H3Index::new` (src/index.rs): checked construction, `Ok` when the
raw value passes `is_valid` and `Err(InvalidIndexArgument)` otherwise. -/
def h3NewM (index : ℕ) : Except ErrorM ℕ :=
  if h3IsValid index then .ok index else .error (.invalidIndexArgument index)

/-- The lowercase hexadecimal character of a digit value below 16,
computed from the character codes. -/
def hexChar (n : ℕ) : Char :=
  if n < 10 then Char.ofNat (Char.toNat '0' + n) else Char.ofNat (Char.toNat 'a' + n - 10)

/-- Hex rendering with explicit fuel (one character per fuel step);
fuel 16 covers every 64-bit value. -/
def toHexAux : ℕ → ℕ → List Char
  | 0, _ => []
  | fuel + 1, n => if n < 16 then [hexChar n] else toHexAux fuel (n / 16) ++ [hexChar (n % 16)]

/-- Modelled from the spec: `h3ToString` of the missing C core renders
the packed 64-bit value as the minimal hexadecimal digit string
(lowercase, no fixed width, no prefix).  Strings are modelled as their
character lists. -/
def toHexString (n : ℕ) : List Char := toHexAux 16 n

/-- The numeric value of a hexadecimal character, case-insensitive,
computed from the character code ranges. -/
def hexVal (c : Char) : Option ℕ :=
  if Char.toNat '0' ≤ c.toNat ∧ c.toNat ≤ Char.toNat '9' then
    some (c.toNat - Char.toNat '0')
  else if Char.toNat 'a' ≤ c.toNat ∧ c.toNat ≤ Char.toNat 'f' then
    some (c.toNat - Char.toNat 'a' + 10)
  else if Char.toNat 'A' ≤ c.toNat ∧ c.toNat ≤ Char.toNat 'F' then
    some (c.toNat - Char.toNat 'A' + 10)
  else none

/-- Accumulating hexadecimal parse; `none` on the first non-hex character. -/
def parseHexAux : ℕ → List Char → Option ℕ
  | acc, [] => some acc
  | acc, c :: t =>
    match hexVal c with
    | none => none
    | some v => parseHexAux (acc * 16 + v) t

/-- Case-insensitive hexadecimal parse of a nonempty digit string. -/
def parseHex : List Char → Option ℕ
  | [] => none
  | c :: t => parseHexAux 0 (c :: t)

/-- Modelled from the spec: `stringToH3` of the missing C core parses a
hexadecimal digit string case-insensitively; on a failed parse the
output value keeps its zero initialisation. -/
def stringToH3M (s : List Char) : ℕ := (parseHex s).getD 0

/-- `From<H3Index> for Result<String>` (src/inspection.rs): renders via
`h3ToString`; the UTF-8 re-validation never fails on the ASCII hex
output, so the wrapper yields `Ok` of the hex string. -/
def toStringRs (h : ℕ) : Except ErrorM (List Char) := .ok (toHexString h)

/-- `From<String> for H3Index` (src/inspection.rs): wraps the value
parsed by `stringToH3` with no further check. -/
def fromStringRs (s : List Char) : ℕ := stringToH3M s

/-- The numeric value of a decimal character, computed from the
character code range. -/
def decVal (c : Char) : Option ℕ :=
  if Char.toNat '0' ≤ c.toNat ∧ c.toNat ≤ Char.toNat '9' then
    some (c.toNat - Char.toNat '0')
  else none

/-- Accumulating decimal parse; `none` on the first non-decimal character. -/
def parseDecAux : ℕ → List Char → Option ℕ
  | acc, [] => some acc
  | acc, c :: t =>
    match decVal c with
    | none => none
    | some v => parseDecAux (acc * 10 + v) t

/-- Rust `u64::from_str`: an optional leading plus sign, then a nonempty
run of decimal digits; rejects any other character and values that
overflow 64 bits. -/
def parseDecU64 (s : List Char) : Option ℕ :=
  let body := match s with
    | '+' :: t => t
    | t => t
  match body with
  | [] => none
  | l => (parseDecAux 0 l).bind fun v => if v < 2 ^ 64 then some v else none

/-- `impl FromStr for H3Index` (src/index.rs): `s.parse::<u64>()` (a
decimal parse) followed by the checked constructor. -/
def fromStrRs (s : List Char) : Except ErrorM ℕ :=
  match parseDecU64 s with
  | none => .error .parseIntError
  | some v => h3NewM v

/-- Modelled from the spec: degrees-to-radians conversion preserves the
finite/non-finite classification of a double (the irrational scale
factor is abstracted; nothing downstream inspects the magnitude). -/
def degsToRadsM : FloatM → FloatM
  | .fin q => .fin (q / 180)
  | x => x

/-- A C `GeoCoord`: latitude and longitude in radians. -/
structure GeoCoordM where
  lat : FloatM
  lon : FloatM

/-- `From<Point<f64>> for GeoCoord` (src/raw.rs): convert both degree
coordinates to radians. -/
def geoCoordOfPoint (p : PointM) : GeoCoordM :=
  ⟨degsToRadsM p.lat, degsToRadsM p.lng⟩

/-- Modelled from the spec: `geoToH3` of the missing C core.  Per spec
section 4.2 it fails - returns the zero sentinel - exactly when a
coordinate is non-finite, and otherwise packs a valid cell of the
requested resolution; the geometric placement (icosahedral projection)
is abstracted to a fixed hexagon base cell with a center digit path. -/
def geoToH3M (c : GeoCoordM) (res : Fin 16) : ℕ :=
  if c.lat.isFinite && c.lon.isFinite then pack ⟨20, List.replicate res.val 0⟩ else 0

/-- `ToH3Index::to_h3_index for Point<f64>` (src/index.rs): convert to a
radian coordinate, call `geoToH3`, map the zero sentinel to
`UnableToIndex` and otherwise run the checked constructor. -/
def toH3IndexM (p : PointM) (res : Fin 16) : Except ErrorM ℕ :=
  let index := geoToH3M (geoCoordOfPoint p) res
  if index = 0 then .error (.unableToIndex p) else h3NewM index


/-- Append one subdivision digit to a cell's path. -/
def appendDigit (c : CellM) (d : ℕ) : CellM := ⟨c.base, c.digits ++ [d]⟩

/-- Modelled from the spec: the direct children of a cell.  A hexagon
cell subdivides into seven children (digits 0-6); for a pentagon cell
one of the seven branches is invalid, the "K" digit 6 is excluded, and
it subdivides into six. -/
def directChildren (c : CellM) : List CellM :=
  if isPentagonCellP c then [0, 1, 2, 3, 4, 5].map (appendDigit c)
  else [0, 1, 2, 3, 4, 5, 6].map (appendDigit c)

/-- Modelled from the spec: the core of `h3ToChildren` of the missing C
library, enumerating all valid descendants `n` levels below a cell by
expanding the valid branches level by level. -/
def childrenN : ℕ → CellM → List CellM
  | 0, c => [c]
  | n + 1, c => (directChildren c).flatMap (childrenN n)

/-- Descendant count of a pentagon cell `n` levels down: the center
branch stays pentagonal, the other five branches are hexagons with 7^n
descendants each. -/
def pentCount : ℕ → ℕ
  | 0 => 1
  | n + 1 => pentCount n + 5 * 7 ^ n

/-- Modelled from the spec: `maxH3ToChildrenSize` of the missing C
core - 7^n descendants for a hexagon cell, fewer for a pentagon cell,
computed by multiplying out the valid branches per level. -/
def maxChildrenN (c : CellM) (n : ℕ) : ℕ :=
  if isPentagonCellP c then pentCount n else 7 ^ n

/-- `H3Index::children` (src/hierarchy.rs): allocates `max_children`
slots and lets the core enumeration fill them; the vector returned
holds the enumerated descendants at the requested resolution. -/
def childrenRs (c : CellM) (childRes : ℕ) : List CellM :=
  childrenN (childRes - c.digits.length) c

/-- `H3Index::max_children` (src/hierarchy.rs): a direct wrapper around
`maxH3ToChildrenSize`. -/
def maxChildrenRs (c : CellM) (childRes : ℕ) : ℕ :=
  maxChildrenN c (childRes - c.digits.length)

/-- Modelled from the spec: `h3ToParent` of the missing C core.  For a
target resolution at most the cell's own it strips the digits below the
target, replaces them with the sentinel 7 and lowers the resolution
field.  For a finer target the spec leaves the result undefined
("implementation may return the input digit path"); the model returns
the input unchanged. -/
def h3ToParentM (h : ℕ) (parentRes : ℕ) : ℕ :=
  let childRes := h3Res h
  if childRes < parentRes then h
  else
    h - (childRes - parentRes) * 2 ^ 52 +
      (List.range 15).foldl
        (fun acc j =>
          if parentRes ≤ j ∧ j + 1 ≤ childRes then
            acc + (7 - digitAt h (j + 1)) * 2 ^ (45 - 3 * (j + 1))
          else acc) 0

/-- `H3Index::parent` (src/hierarchy.rs): a direct wrapper around
`h3ToParent`; its return type is a plain `H3Index` - there is no error
channel. -/
def parentRs (h : ℕ) (res : Fin 16) : ℕ := h3ToParentM h res.val

/-- The parent one resolution up in the field view: drop the last
digit. -/
def parentC (c : CellM) : CellM := ⟨c.base, c.digits.dropLast⟩

/-- One compaction pass, modelled from the spec: every cell whose
parent's complete child set is present in the input is replaced by that
parent, and the duplicates arising from a replaced sibling group are
merged; all other cells pass through unchanged. -/
def compactStep (l : List CellM) : List CellM :=
  (l.map fun c =>
    if c.digits ≠ [] ∧ ∀ x ∈ directChildren (parentC c), x ∈ l then parentC c else c).dedup

/-- Iterated compaction passes. -/
def compactFuel : ℕ → List CellM → List CellM
  | 0, l => l
  | n + 1, l => compactFuel n (compactStep l)

/-- Modelled from the spec: `compact` of the missing C core repeats the
sibling-replacement pass until no further replacement is possible;
fifteen passes always reach the fixpoint since a pass can only shrink
toward resolution 0. -/
def compactSpecM (l : List CellM) : List CellM := compactFuel 15 l

/-- `ToCompactH3Region::compact for Vec<H3Index>` (src/hierarchy.rs):
the wrapper allocates one buffer slot per input cell, lets the core
write the compacted set into the buffer's front, and returns the whole
buffer - the unwritten tail slots (modelled `none`; uninitialised
memory in the Rust code) included - as a vector of the input's length.
The core fails on duplicate or invalid input cells. -/
def compactRs (l : List CellM) : Except ErrorM (List (Option CellM)) :=
  if l.Nodup ∧ ∀ c ∈ l, structWF c then
    .ok ((compactSpecM l).map some ++
      List.replicate (l.length - (compactSpecM l).length) none)
  else .error (.unableToCompact l)

/-- Base cell 20 (a hexagon) as a resolution-0 cell. -/
def base20Cell : CellM := ⟨20, []⟩

/-- The complete set of the seven resolution-1 children of base
cell 20. -/
def sevenSiblings : List CellM := directChildren base20Cell

/-- A cell in local axial coordinates.  Modelled from the spec: away
from pentagon distortion the grid is the hexagonal lattice and
traversal works on the cube/axial IJK representation of cells (spec
section 4.4); the packed-cell-to-local-coordinate map is abstracted. -/
abbrev AxPt : Type := ℤ × ℤ

/-- The traversal error cases of the error enum, with cell payloads in
lattice coordinates. -/
inductive TravErr where
  | incompatibleIndices (left right : AxPt)
  | unableToComputeH3Line (left right : AxPt)
  | unableToComputeTraversal (index : AxPt) (k : ℤ)
  deriving DecidableEq

/-- Twice the hex grid distance between two lattice cells: the sum of
the absolute cube-coordinate differences of their IJK
representations. -/
def dist2 (p q : AxPt) : ℕ :=
  (q.1 - p.1).natAbs + (q.2 - p.2).natAbs + ((q.1 + q.2) - (p.1 + p.2)).natAbs

/-- Modelled from the spec: grid distance via the cube/axial coordinate
difference (half the sum of the absolute cube differences). -/
def hexDistM (p q : AxPt) : ℕ := dist2 p q / 2

/-- `maxKringSize` of the C API: 3k^2+3k+1, the size of a hexagon's
k-ring. -/
def maxKringSize (k : ℕ) : ℕ := 3 * k ^ 2 + 3 * k + 1

/-- Modelled from the spec: the k-ring as a set - all cells within grid
distance k of the origin, the origin included. -/
def kRingBall (o : AxPt) (k : ℕ) : Finset AxPt :=
  ((Finset.Icc (o.1 - k) (o.1 + k)) ×ˢ (Finset.Icc (o.2 - k) (o.2 + k))).filter
    fun p => hexDistM o p ≤ k

/-- The integers from `a` to `b` inclusive as a list. -/
def intRangeList (a b : ℤ) : List ℤ :=
  (List.range (b + 1 - a).toNat).map fun i : ℕ => a + (i : ℤ)

/-- Row-major enumeration of the axial bounding square of radius k
around a center. -/
def squareList (o : AxPt) (k : ℕ) : List AxPt :=
  (intRangeList (o.1 - k) (o.1 + k)).flatMap fun x =>
    (intRangeList (o.2 - k) (o.2 + k)).map fun y => (x, y)

/-- Modelled from the spec: the cell list the C `kRing` writes into the
caller's buffer - an enumeration of all cells within grid distance k of
the origin. -/
def kRingListM (o : AxPt) (k : ℕ) : List AxPt :=
  (squareList o k).filter fun p => decide (hexDistM o p ≤ k)

/-- `H3Index::get_k_ring_indices` (src/traversal.rs): allocate
`maxKringSize k` buffer slots, let the core fill them (slots the core
does not write hold the zero index, modelled `none`), and filter the
zero entries out of the returned vector. -/
def getKRingIndicesM (o : AxPt) (k : ℕ) : List AxPt :=
  ((kRingListM o k).map some ++
    List.replicate (maxKringSize k - (kRingListM o k).length) (none : Option AxPt)).filterMap id

/-- Modelled from the spec: the hollow ring at exact grid distance k -
the cells of the k-ring whose distance from the origin is exactly k. -/
def hexRingListM (o : AxPt) (k : ℕ) : List AxPt :=
  (kRingListM o k).filter fun p => decide (hexDistM o p = k)

/-- `H3Index::hex_ring` (src/traversal.rs): allocates `maxKringSize k`
buffer slots (not the ring size 6k), has the core write the hollow ring
into the buffer's front, and returns the whole buffer - the unwritten
tail slots (modelled `none`; uninitialised memory in the Rust code)
included.  The pentagon-distortion failure path maps to
`UnableToComputeTraversal`; the lattice model is away from pentagons,
so the core call always succeeds. -/
def hexRingRs (o : AxPt) (k : ℕ) : Except TravErr (List (Option AxPt)) :=
  .ok ((hexRingListM o k).map some ++
    List.replicate (maxKringSize k - (hexRingListM o k).length) none)

/-- Modelled from the spec: `h3Distance` on the lattice.  The failure
cases (negative return on mixed resolutions or pentagon distortion) do
not arise in the lattice model. -/
def h3DistanceM (a b : AxPt) : ℤ := (hexDistM a b : ℤ)

/-- `H3Index::distance_to` (src/traversal.rs): negative distances map
to `IncompatibleIndices`, otherwise the distance is returned. -/
def distanceToRs (a b : AxPt) : Except TravErr ℤ :=
  if h3DistanceM a b < 0 then .error (.incompatibleIndices a b) else .ok (h3DistanceM a b)

/-- The unit move taking one grid step from `p` toward `q`, chosen by
the signs of the cube-coordinate differences. -/
def stepToward (p q : AxPt) : AxPt :=
  if 0 < q.1 - p.1 ∧ q.2 - p.2 < 0 then (p.1 + 1, p.2 - 1)
  else if q.1 - p.1 < 0 ∧ 0 < q.2 - p.2 then (p.1 - 1, p.2 + 1)
  else if 0 < q.1 - p.1 then (p.1 + 1, p.2)
  else if q.1 - p.1 < 0 then (p.1 - 1, p.2)
  else if 0 < q.2 - p.2 then (p.1, p.2 + 1)
  else if q.2 - p.2 < 0 then (p.1, p.2 - 1)
  else p

/-- Path construction: one grid step toward the target per entry. -/
def lineAux : ℕ → AxPt → AxPt → List AxPt
  | 0, p, _ => [p]
  | n + 1, p, q => p :: lineAux n (stepToward p q) q

/-- Modelled from the spec: `h3Line` of the missing C core writes an
ordered minimal path of cells from start to end inclusive. -/
def h3LineM (a b : AxPt) : List AxPt := lineAux (hexDistM a b) a b

/-- `h3LineSize` of the C core: grid distance plus one; negative when
the line cannot be computed (does not arise in the lattice model). -/
def h3LineSizeM (a b : AxPt) : ℤ := h3DistanceM a b + 1

/-- `H3Index::line_size` (src/traversal.rs): a negative core size maps
to `UnableToComputeH3Line`. -/
def lineSizeRs (a b : AxPt) : Except TravErr ℕ :=
  if h3LineSizeM a b < 0 then .error (.unableToComputeH3Line a b)
  else .ok (h3LineSizeM a b).toNat

/-- `H3Index::line_to` (src/traversal.rs): allocate `line_size` slots,
let the core write the path, and return `line_size` entries. -/
def lineToRs (a b : AxPt) : Except TravErr (List AxPt) :=
  (lineSizeRs a b).map fun sz => (h3LineM a b).take sz

/-- Grid adjacency on the lattice: grid distance exactly one. -/
def adjacentM (p q : AxPt) : Prop := dist2 p q = 2

instance (p q : AxPt) : Decidable (adjacentM p q) := by
  unfold adjacentM; infer_instance

/-- Modelled from the spec: the k = 1 ring buffer around the pentagon
base cell 0x821c07fffffffff.  A pentagon origin has exactly five
neighbors, so the C core fills six of the seven buffer slots (the
origin plus the five neighbor cells of the repository's pentagon
k-ring test) and leaves the seventh slot zeroed. -/
def pentagonKRing1Buffer : List (Option ℕ) :=
  [some 0x821c07fffffffff, some 0x821c2ffffffffff, some 0x821c27fffffffff,
    some 0x821c17fffffffff, some 0x821c1ffffffffff, some 0x821c37fffffffff, none]

/-- The wrapper's zero-filtering applied to the pentagon ring buffer. -/
def getKRingPentagon1 : List ℕ := pentagonKRing1Buffer.filterMap id

/-- A `geo_types` line string: a vertex list in degree coordinates. -/
abbrev LineStringM : Type := List (FloatM × FloatM)

/-- A `geo_types` polygon: an exterior ring and interior (hole)
rings. -/
abbrev PolygonM : Type := LineStringM × List LineStringM

/-- A `geo_types::MultiPolygon<f64>`. -/
structure MultiPolygonM where
  polygons : List PolygonM
  deriving DecidableEq

/-- `ToMultiPolygon` (src/region.rs): the declared cell-set-to-polygon
dissolution; its body constructs `MultiPolygon(vec![])` regardless of
the input cells. -/
def ToMultiPolygonRs (_indices : List ℕ) : MultiPolygonM :=
  ⟨[]⟩

/-- The resolution-7 cell 0x87283472bffffff of the spec's concrete
children scenario, in field view: base cell 20, digit path
[0, 6, 4, 3, 4, 5, 3]. -/
def cell7 : CellM := ⟨20, [0, 6, 4, 3, 4, 5, 3]⟩

/-- Decidable equality of `Except` results, used to evaluate the
wrapper outcomes on concrete inputs. -/
instance exceptDecEq {e a : Type} [DecidableEq e] [DecidableEq a] :
    DecidableEq (Except e a) := fun x y =>
  match x, y with
  | .ok u, .ok v => decidable_of_iff (u = v) (by simp)
  | .error u, .error v => decidable_of_iff (u = v) (by simp)
  | .ok _, .error _ => isFalse (by simp)
  | .error _, .ok _ => isFalse (by simp)

/-! ### Theorems -/

theorem hexVal_hexChar : ∀ d < 16, hexVal (hexChar d) = some d := by decide

theorem parseHexAux_append (xs : List Char) :
    ∀ acc ys, parseHexAux acc (xs ++ ys) =
      (parseHexAux acc xs).bind fun m => parseHexAux m ys := by
  induction xs with
  | nil => intro acc ys; rfl
  | cons c t ih =>
      intro acc ys
      simp only [List.cons_append, parseHexAux]
      cases hexVal c with
      | none => rfl
      | some v => exact ih (acc * 16 + v) ys

theorem toHexAux_ne_nil (fuel n : ℕ) (hf : 0 < fuel) : toHexAux fuel n ≠ [] := by
  cases fuel with
  | zero => omega
  | succ f =>
      unfold toHexAux
      split
      · simp
      · simp

theorem parseHexAux_toHexAux :
    ∀ fuel n acc, n < 16 ^ fuel → 0 < fuel →
      parseHexAux acc (toHexAux fuel n) = some (acc * 16 ^ (toHexAux fuel n).length + n) := by
  intro fuel
  induction fuel with
  | zero => intro n acc _ h; omega
  | succ f ih =>
      intro n acc hn _
      unfold toHexAux
      by_cases hsmall : n < 16
      · simp only [if_pos hsmall, parseHexAux, hexVal_hexChar n hsmall]
        simp [pow_one]
      · have hf : 0 < f := by
          rcases Nat.eq_zero_or_pos f with h0 | h0
          · subst h0; simp at hn; omega
          · exact h0
        have hdiv : n / 16 < 16 ^ f := by
          rw [Nat.div_lt_iff_lt_mul (by norm_num)]
          calc n < 16 ^ (f + 1) := hn
            _ = 16 ^ f * 16 := by ring
        simp only [if_neg hsmall, parseHexAux_append]
        rw [ih (n / 16) acc hdiv hf]
        simp only [Option.some_bind, parseHexAux, hexVal_hexChar (n % 16) (Nat.mod_lt _ (by norm_num)),
          List.length_append, List.length_singleton]
        congr 1
        calc (acc * 16 ^ (toHexAux f (n / 16)).length + n / 16) * 16 + n % 16
            = acc * (16 ^ (toHexAux f (n / 16)).length * 16) + (n / 16 * 16 + n % 16) := by ring
          _ = acc * 16 ^ ((toHexAux f (n / 16)).length + 1) + n := by
              rw [← pow_succ, Nat.div_add_mod']

theorem parseHex_toHexString (n : ℕ) (hn : n < 2 ^ 64) : parseHex (toHexString n) = some n := by
  have hne : toHexAux 16 n ≠ [] := toHexAux_ne_nil 16 n (by norm_num)
  have h16 : n < 16 ^ 16 := by norm_num at hn ⊢; omega
  have hmain := parseHexAux_toHexAux 16 n 0 h16 (by norm_num)
  obtain ⟨c, t, hval⟩ : ∃ c t, toHexAux 16 n = c :: t := by
    cases h : toHexAux 16 n with
    | nil => exact absurd h hne
    | cons c t => exact ⟨c, t, rfl⟩
  unfold toHexString
  rw [hval]
  calc parseHex (c :: t) = parseHexAux 0 (toHexAux 16 n) := by rw [hval]; simp [parseHex]
    _ = some n := by rw [hmain]; simp

theorem h3IsValid_lt (h : ℕ) (hv : h3IsValid h = true) : h < 2 ^ 64 := by
  have : h < 2 ^ 63 := by
    unfold h3IsValid at hv
    simp only [Bool.and_eq_true, decide_eq_true_eq] at hv
    exact hv.1.1.1.1.1
  omega

/-- C1 (amended): for every valid cell, rendering via the wrapper
`From<H3Index> for Result<String>` and parsing the hex string back with
`From<String> for H3Index` yields the original cell. -/
theorem claim1_hex_string_roundtrip (h : ℕ) (hv : h3IsValid h = true) :
    toStringRs h = .ok (toHexString h) ∧ fromStringRs (toHexString h) = h := by
  refine ⟨rfl, ?_⟩
  unfold fromStringRs stringToH3M
  rw [parseHex_toHexString h (h3IsValid_lt h hv)]
  rfl

theorem claim1_witness :
    h3IsValid 0x85283473fffffff = true ∧
      fromStringRs (toHexString 0x85283473fffffff) = 0x85283473fffffff :=
  ⟨by decide, (claim1_hex_string_roundtrip 0x85283473fffffff (by decide)).2⟩

/-- C1 counterexample: the `FromStr` implementation (src/index.rs)
parses decimal, so on the canonical hex string of the valid cell
0x85283473fffffff it returns a `ParseIntError` instead of the cell. -/
theorem claim1_counterexample :
    toHexString 0x85283473fffffff =
        ['8', '5', '2', '8', '3', '4', '7', '3', 'f', 'f', 'f', 'f', 'f', 'f', 'f'] ∧
      fromStrRs ['8', '5', '2', '8', '3', '4', '7', '3', 'f', 'f', 'f', 'f', 'f', 'f', 'f'] =
        .error .parseIntError := by
  constructor
  · decide
  · rfl

/-- C9: `H3Index::new` returns `Ok` of the raw value exactly when
`is_valid` holds, returns `Err(InvalidIndexArgument)` otherwise, and
every value obtained from the checked constructor satisfies `is_valid`. -/
theorem claim9_new_iff_valid (index : ℕ) :
    (h3NewM index = .ok index ↔ h3IsValid index = true) ∧
      (h3IsValid index = false → h3NewM index = .error (.invalidIndexArgument index)) ∧
      (∀ j, h3NewM index = .ok j → h3IsValid j = true) := by
  unfold h3NewM
  cases hv : h3IsValid index with
  | false =>
      refine ⟨by simp [hv], fun _ => by simp [hv], fun j hj => ?_⟩
      simp [hv] at hj
  | true =>
      refine ⟨by simp [hv], by simp, fun j hj => ?_⟩
      simp [hv] at hj
      subst hj
      exact hv

theorem claim9_witness :
    h3NewM 0x85283473fffffff = .ok 0x85283473fffffff ∧
      h3NewM 0x5004295803a88 = .error (.invalidIndexArgument 0x5004295803a88) :=
  ⟨(claim9_new_iff_valid 0x85283473fffffff).1.mpr (by decide),
   (claim9_new_iff_valid 0x5004295803a88).2.1 (by decide)⟩

/-- C10: the declared cell-set-to-polygon dissolution returns an empty
`MultiPolygon` (zero polygons) for every input cell set, non-empty
inputs included, and its return type carries no error channel. -/
theorem claim10_to_multi_polygon_empty (indices : List ℕ) :
    ToMultiPolygonRs indices = ⟨[]⟩ ∧ (ToMultiPolygonRs indices).polygons.length = 0 :=
  ⟨rfl, rfl⟩

/-- C7 evaluation: `parent` never rejects a finer target resolution.
On the valid resolution-5 cell 0x85283473fffffff with target resolution
6 the wrapper returns a plain `H3Index` value (the modelled core hands
the input back); its return type has no error case at all. -/
theorem claim7_parent_never_rejects :
    h3Res 0x85283473fffffff = 5 ∧
      parentRs 0x85283473fffffff (6 : Fin 16) = 0x85283473fffffff := by
  constructor
  · decide
  · rfl

/-- Degrees-to-radians preserves finiteness. -/
theorem degsToRadsM_isFinite (x : FloatM) : (degsToRadsM x).isFinite = x.isFinite := by
  cases x <;> rfl

/-- The packed form of any field-view cell is nonzero. -/
theorem pack_ne_zero (c : CellM) : pack c ≠ 0 := by
  have : 0 < pack c := by
    unfold pack
    positivity
  omega

/-- C8: indexing a point with a non-finite coordinate fails with
`UnableToIndex` at every resolution; indexing a finite point never
fails with that error. -/
theorem claim8_encode_unable_to_index (p : PointM) (res : Fin 16) :
    (p.lat.isFinite = false ∨ p.lng.isFinite = false →
      toH3IndexM p res = .error (.unableToIndex p)) ∧
      (p.lat.isFinite = true ∧ p.lng.isFinite = true →
        toH3IndexM p res ≠ .error (.unableToIndex p)) := by
  have hidx : geoToH3M (geoCoordOfPoint p) res =
      if p.lat.isFinite && p.lng.isFinite then pack ⟨20, List.replicate res.val 0⟩ else 0 := by
    unfold geoToH3M geoCoordOfPoint
    rw [degsToRadsM_isFinite, degsToRadsM_isFinite]
  constructor
  · intro h
    have hb : (p.lat.isFinite && p.lng.isFinite) = false := by
      rcases h with h | h <;> simp [h]
    unfold toH3IndexM
    rw [hidx, hb]
    simp
  · rintro ⟨h1, h2⟩
    have hb : (p.lat.isFinite && p.lng.isFinite) = true := by simp [h1, h2]
    unfold toH3IndexM
    rw [hidx, hb, if_pos rfl, if_neg (pack_ne_zero _)]
    unfold h3NewM
    split <;> simp

theorem claim8_witness :
    toH3IndexM ⟨.fin 0, .nan⟩ (0 : Fin 16) = .error (.unableToIndex ⟨.fin 0, .nan⟩) ∧
      toH3IndexM ⟨.fin (-122), .fin 37⟩ (5 : Fin 16) ≠
        .error (.unableToIndex ⟨.fin (-122), .fin 37⟩) :=
  ⟨(claim8_encode_unable_to_index ⟨.fin 0, .nan⟩ (0 : Fin 16)).1 (Or.inl rfl),
   (claim8_encode_unable_to_index ⟨.fin (-122), .fin 37⟩ (5 : Fin 16)).2 ⟨rfl, rfl⟩⟩

/-- C2 evaluation: on the complete sibling set of the seven resolution-1
children of base cell 20, the true compacted set is the single parent
cell, but the wrapper returns a vector of the input's length - the
parent followed by six unwritten buffer slots - so compact-then-uncompact
cannot reproduce the original set. -/
theorem claim2_compact_returns_input_length_buffer :
    compactSpecM sevenSiblings = [base20Cell] ∧
      compactRs sevenSiblings =
        .ok (some base20Cell :: List.replicate 6 (none : Option CellM)) ∧
      sevenSiblings.length = 7 := by
  refine ⟨by decide, ?_, by decide⟩
  have h1 : compactSpecM sevenSiblings = [base20Cell] := by decide
  have h2 : (sevenSiblings.Nodup ∧ ∀ c ∈ sevenSiblings, structWF c) := by decide
  unfold compactRs
  rw [if_pos h2, h1]
  have h3 : sevenSiblings.length = 7 := by decide
  rw [h3]
  rfl

theorem pack_cell7 : pack cell7 = 0x87283472bffffff := by decide

theorem isPentagonCellP_appendDigit_zero (c : CellM) (h : isPentagonCellP c) :
    isPentagonCellP (appendDigit c 0) := by
  obtain ⟨hb, hd⟩ := h
  refine ⟨hb, fun d hmem => ?_⟩
  rcases List.mem_append.mp hmem with h1 | h1
  · exact hd d h1
  · simpa using h1

theorem not_pentagon_appendDigit_of_ne (c : CellM) (d : ℕ) (hd : d ≠ 0) :
    ¬ isPentagonCellP (appendDigit c d) := by
  rintro ⟨_, hall⟩
  exact hd (hall d (by simp [appendDigit]))

theorem not_pentagon_appendDigit_of_not (c : CellM) (d : ℕ) (h : ¬ isPentagonCellP c) :
    ¬ isPentagonCellP (appendDigit c d) := by
  rintro ⟨hb, hall⟩
  exact h ⟨hb, fun x hx => hall x (List.mem_append_left _ hx)⟩

theorem childrenN_length : ∀ n c, (childrenN n c).length = maxChildrenN c n := by
  intro n
  induction n with
  | zero => intro c; simp [childrenN, maxChildrenN, pentCount]
  | succ n ih =>
      intro c
      by_cases hp : isPentagonCellP c
      · have h0 : (childrenN n (appendDigit c 0)).length = pentCount n := by
          rw [ih]; unfold maxChildrenN
          rw [if_pos (isPentagonCellP_appendDigit_zero c hp)]
        have hd : ∀ d : ℕ, d ≠ 0 → (childrenN n (appendDigit c d)).length = 7 ^ n := by
          intro d hdz
          rw [ih]; unfold maxChildrenN
          rw [if_neg (not_pentagon_appendDigit_of_ne c d hdz)]
        show ((directChildren c).flatMap (childrenN n)).length = maxChildrenN c (n + 1)
        rw [show maxChildrenN c (n + 1) = pentCount (n + 1) from if_pos hp]
        simp only [directChildren, if_pos hp, List.flatMap_map, List.length_flatMap,
          List.map_cons, List.map_nil, List.sum_cons, List.sum_nil, Function.comp_apply]
        rw [h0, hd 1 one_ne_zero, hd 2 (by omega), hd 3 (by omega), hd 4 (by omega),
          hd 5 (by omega)]
        rw [show pentCount (n + 1) = pentCount n + 5 * 7 ^ n from rfl]
        omega
      · have hd : ∀ d : ℕ, (childrenN n (appendDigit c d)).length = 7 ^ n := by
          intro d
          rw [ih]; unfold maxChildrenN
          rw [if_neg (not_pentagon_appendDigit_of_not c d hp)]
        show ((directChildren c).flatMap (childrenN n)).length = maxChildrenN c (n + 1)
        rw [show maxChildrenN c (n + 1) = 7 ^ (n + 1) from if_neg hp]
        simp only [directChildren, if_neg hp, List.flatMap_map, List.length_flatMap,
          List.map_cons, List.map_nil, List.sum_cons, List.sum_nil, Function.comp_apply]
        rw [hd 0, hd 1, hd 2, hd 3, hd 4, hd 5, hd 6, pow_succ]
        omega

theorem childrenN_spec :
    ∀ n c x, x ∈ childrenN n c →
      ∃ t : List ℕ, t.length = n ∧ x.base = c.base ∧ x.digits = c.digits ++ t := by
  intro n
  induction n with
  | zero =>
      intro c x hx
      simp [childrenN] at hx
      exact ⟨[], rfl, by rw [hx], by rw [hx]; simp⟩
  | succ n ih =>
      intro c x hx
      have hx2 : ∃ y ∈ directChildren c, x ∈ childrenN n y := by
        simpa [childrenN, List.mem_flatMap] using hx
      obtain ⟨y, hy, hxy⟩ := hx2
      have hy2 : ∃ d : ℕ, y = appendDigit c d := by
        unfold directChildren at hy
        split at hy <;> simp at hy <;> tauto
      obtain ⟨d, rfl⟩ := hy2
      obtain ⟨t, ht, hb, hdig⟩ := ih (appendDigit c d) x hxy
      exact ⟨d :: t, by simp [ht], hb, by rw [hdig]; simp [appendDigit]⟩

theorem leadOKb_append (ds : List ℕ) (d : ℕ) (h : leadOKb ds = true)
    (hz : (∀ x ∈ ds, x = 0) → d ≠ 6) : leadOKb (ds ++ [d]) = true := by
  induction ds with
  | nil =>
      have hd6 : d ≠ 6 := hz (by simp)
      simp [leadOKb]
      exact Or.inr hd6
  | cons a t ih =>
      by_cases ha : a = 0
      · subst ha
        have h1 : leadOKb t = true := by simpa [leadOKb] using h
        have h2 : (∀ x ∈ t, x = 0) → d ≠ 6 := fun hall =>
          hz (by intro x hx; rcases List.mem_cons.mp hx with rfl | hx2
                 · rfl
                 · exact hall x hx2)
        simpa [leadOKb] using ih h1 h2
      · have h1 : (a != 6) = true := by simpa [leadOKb, ha] using h
        simpa [leadOKb, ha] using h1

theorem mem_directChildren_shape (c : CellM) :
    ∀ x ∈ directChildren c, ∃ d : ℕ, d ≤ 6 ∧ x = appendDigit c d := by
  intro x hx
  unfold directChildren at hx
  split at hx
  · simp at hx
    rcases hx with rfl | rfl | rfl | rfl | rfl | rfl
    exacts [⟨0, by omega, rfl⟩, ⟨1, by omega, rfl⟩, ⟨2, by omega, rfl⟩, ⟨3, by omega, rfl⟩,
      ⟨4, by omega, rfl⟩, ⟨5, by omega, rfl⟩]
  · simp at hx
    rcases hx with rfl | rfl | rfl | rfl | rfl | rfl | rfl
    exacts [⟨0, by omega, rfl⟩, ⟨1, by omega, rfl⟩, ⟨2, by omega, rfl⟩, ⟨3, by omega, rfl⟩,
      ⟨4, by omega, rfl⟩, ⟨5, by omega, rfl⟩, ⟨6, by omega, rfl⟩]

theorem directChildren_wf (c : CellM) (h : structWF c) (hlen : c.digits.length + 1 ≤ 15) :
    ∀ x ∈ directChildren c, structWF x := by
  intro x hx
  obtain ⟨hbase, _, hdig, hpent⟩ := h
  obtain ⟨d, hd6, rfl⟩ := mem_directChildren_shape c x hx
  refine ⟨hbase, ?_, ?_, ?_⟩
  · simpa [appendDigit] using hlen
  · intro e he
    rcases List.mem_append.mp he with h1 | h1
    · exact hdig e h1
    · simp at h1; omega
  · intro hbp
    show leadOKb (c.digits ++ [d]) = true
    by_cases hpc : isPentagonCellP c
    · have hd5 : d ≤ 5 := by
        unfold directChildren at hx
        rw [if_pos hpc] at hx
        simp [appendDigit] at hx
        rcases hx with rfl | rfl | rfl | rfl | rfl | rfl <;> omega
      exact leadOKb_append c.digits d (hpent hbp) (fun _ => by omega)
    · have hnz : ¬ ∀ y ∈ c.digits, y = 0 := fun hall => hpc ⟨hbp, hall⟩
      exact leadOKb_append c.digits d (hpent hbp) (fun hall => absurd hall hnz)

theorem childrenN_wf :
    ∀ n c, structWF c → c.digits.length + n ≤ 15 → ∀ x ∈ childrenN n c, structWF x := by
  intro n
  induction n with
  | zero =>
      intro c hc _ x hx
      simp [childrenN] at hx
      rwa [hx]
  | succ n ih =>
      intro c hc hlen x hx
      have hx2 : ∃ y ∈ directChildren c, x ∈ childrenN n y := by
        simpa [childrenN, List.mem_flatMap] using hx
      obtain ⟨y, hy, hxy⟩ := hx2
      have hywf : structWF y := directChildren_wf c hc (by omega) y hy
      have hylen : y.digits.length = c.digits.length + 1 := by
        obtain ⟨d, _, rfl⟩ := mem_directChildren_shape c y hy
        simp [appendDigit]
      exact ih y hywf (by omega) x hxy

/-- C3: for every well-formed cell and every child resolution between
the cell's own resolution and 15, `children` returns exactly
`max_children` entries, and every entry has resolution `childRes`, is
well formed (pentagon-consistent, no placeholder), keeps the base cell,
and descends from the cell (its digit path extends the cell's). -/
theorem claim3_children_complete (c : CellM) (childRes : ℕ) (hwf : structWF c)
    (h1 : c.digits.length ≤ childRes) (h2 : childRes ≤ 15) :
    (childrenRs c childRes).length = maxChildrenRs c childRes ∧
      ∀ x ∈ childrenRs c childRes,
        x.digits.length = childRes ∧ structWF x ∧ x.base = c.base ∧
          x.digits.take c.digits.length = c.digits := by
  unfold childrenRs maxChildrenRs
  refine ⟨childrenN_length _ c, fun x hx => ?_⟩
  obtain ⟨t, ht, hb, hd⟩ := childrenN_spec _ c x hx
  refine ⟨?_, childrenN_wf _ c hwf (by omega) x hx, hb, ?_⟩
  · rw [hd]
    simp [ht]
    omega
  · rw [hd]
    exact List.take_left c.digits t

theorem claim3_witness :
    ((childrenRs cell7 8).length = maxChildrenRs cell7 8 ∧
        ∀ x ∈ childrenRs cell7 8,
          x.digits.length = 8 ∧ structWF x ∧ x.base = cell7.base ∧
            x.digits.take cell7.digits.length = cell7.digits) ∧
      maxChildrenRs cell7 8 = 7 ∧ (childrenRs cell7 7).length = 1 :=
  ⟨claim3_children_complete cell7 8 (by decide) (by decide) (by decide),
   by decide, by decide⟩

theorem dist2_eq_zero_iff (p q : AxPt) : dist2 p q = 0 ↔ p = q := by
  unfold dist2
  constructor
  · intro h
    have h1 : p.1 = q.1 ∧ p.2 = q.2 := by omega
    exact Prod.ext h1.1 h1.2
  · rintro rfl
    omega

theorem dist2_even (p q : AxPt) : dist2 p q % 2 = 0 := by
  unfold dist2
  omega

theorem stepToward_dist (p q : AxPt) (h : p ≠ q) :
    dist2 (stepToward p q) q + 2 = dist2 p q := by
  have h2 : ¬(p.1 = q.1 ∧ p.2 = q.2) := fun hc => h (Prod.ext hc.1 hc.2)
  obtain ⟨px, py⟩ := p
  obtain ⟨qx, qy⟩ := q
  simp only [] at h2
  unfold stepToward dist2
  split_ifs <;> (simp_all; try omega)

theorem stepToward_adjacent (p q : AxPt) (h : p ≠ q) : dist2 p (stepToward p q) = 2 := by
  have h2 : ¬(p.1 = q.1 ∧ p.2 = q.2) := fun hc => h (Prod.ext hc.1 hc.2)
  obtain ⟨px, py⟩ := p
  obtain ⟨qx, qy⟩ := q
  simp only [] at h2
  unfold stepToward dist2
  split_ifs <;> (simp_all; try omega)

theorem lineAux_length (n : ℕ) : ∀ p q, (lineAux n p q).length = n + 1 := by
  induction n with
  | zero => intro p q; rfl
  | succ n ih => intro p q; simpa [lineAux] using ih (stepToward p q) q

theorem lineAux_head (n : ℕ) (p q : AxPt) : (lineAux n p q).head? = some p := by
  cases n <;> rfl

theorem lineAux_getLast (n : ℕ) : ∀ p q, dist2 p q = 2 * n →
    (lineAux n p q).getLast? = some q := by
  induction n with
  | zero =>
      intro p q hd
      have : p = q := (dist2_eq_zero_iff p q).mp (by omega)
      subst this
      rfl
  | succ n ih =>
      intro p q hd
      have hpq : p ≠ q := by
        intro h
        rw [(dist2_eq_zero_iff p q).mpr h] at hd
        omega
      have hstep : dist2 (stepToward p q) q = 2 * n := by
        have := stepToward_dist p q hpq
        omega
      have htail := ih (stepToward p q) q hstep
      show (p :: lineAux n (stepToward p q) q).getLast? = some q
      cases hval : lineAux n (stepToward p q) q with
      | nil =>
          have := lineAux_length n (stepToward p q) q
          rw [hval] at this
          simp at this
      | cons a t =>
          rw [hval] at htail
          rw [List.getLast?_cons_cons]
          exact htail

theorem lineAux_chain (n : ℕ) : ∀ p q, dist2 p q = 2 * n →
    List.Chain' adjacentM (lineAux n p q) := by
  induction n with
  | zero => intro p q _; simp [lineAux]
  | succ n ih =>
      intro p q hd
      have hpq : p ≠ q := by
        intro h
        rw [(dist2_eq_zero_iff p q).mpr h] at hd
        omega
      have hstep : dist2 (stepToward p q) q = 2 * n := by
        have := stepToward_dist p q hpq
        omega
      show List.Chain' adjacentM (p :: lineAux n (stepToward p q) q)
      rw [List.chain'_cons']
      refine ⟨?_, ih (stepToward p q) q hstep⟩
      intro b hb
      rw [lineAux_head n (stepToward p q) q] at hb
      cases hb
      exact stepToward_adjacent p q hpq

theorem dist2_two_mul (p q : AxPt) : dist2 p q = 2 * hexDistM p q := by
  have := dist2_even p q
  unfold hexDistM
  omega

/-- C6: whenever `line_to` succeeds, the returned path starts at the
origin, ends at the destination, has length `gridDistance + 1` (with
`distance_to` succeeding on that value), and every consecutive pair of
path cells is grid-adjacent. -/
theorem claim6_line_properties (a b : AxPt) (l : List AxPt)
    (h : lineToRs a b = .ok l) :
    l.length = hexDistM a b + 1 ∧ l.head? = some a ∧ l.getLast? = some b ∧
      List.Chain' adjacentM l ∧ distanceToRs a b = .ok (hexDistM a b : ℤ) := by
  have hsz : h3LineSizeM a b = (hexDistM a b : ℤ) + 1 := rfl
  have hnn : ¬ h3LineSizeM a b < 0 := by rw [hsz]; omega
  have hl : l = (h3LineM a b).take (hexDistM a b + 1) := by
    unfold lineToRs lineSizeRs at h
    rw [if_neg hnn] at h
    have hinj : (h3LineM a b).take (h3LineSizeM a b).toNat = l := Except.ok.inj h
    have ht : (h3LineSizeM a b).toNat = hexDistM a b + 1 := by rw [hsz]; omega
    rw [← hinj, ht]
  have hlen : (h3LineM a b).length = hexDistM a b + 1 := by
    unfold h3LineM
    exact lineAux_length _ a b
  have hfull : l = h3LineM a b := by
    rw [hl, ← hlen, List.take_length]
  subst hfull
  have hd := dist2_two_mul a b
  refine ⟨hlen, lineAux_head _ a b, lineAux_getLast _ a b hd, lineAux_chain _ a b hd, ?_⟩
  unfold distanceToRs
  rw [if_neg (by unfold h3DistanceM; omega)]
  rfl

theorem claim6_witness :
    (lineToRs (0, 0) (2, 0) = .ok [(0, 0), (1, 0), (2, 0)]) ∧
      ([((0 : ℤ), (0 : ℤ)), (1, 0), (2, 0)].length = hexDistM (0, 0) (2, 0) + 1 ∧
        [((0 : ℤ), (0 : ℤ)), (1, 0), (2, 0)].head? = some (0, 0) ∧
        [((0 : ℤ), (0 : ℤ)), (1, 0), (2, 0)].getLast? = some (2, 0) ∧
        List.Chain' adjacentM [((0 : ℤ), (0 : ℤ)), (1, 0), (2, 0)] ∧
        distanceToRs (0, 0) (2, 0) = .ok (hexDistM (0, 0) (2, 0) : ℤ)) :=
  ⟨by decide, claim6_line_properties (0, 0) (2, 0) [(0, 0), (1, 0), (2, 0)] (by decide)⟩

theorem hexDistM_le_iff (o p : AxPt) (k : ℕ) :
    hexDistM o p ≤ k ↔ (p.1 - o.1).natAbs ≤ k ∧ (p.2 - o.2).natAbs ≤ k ∧
      ((p.1 + p.2) - (o.1 + o.2)).natAbs ≤ k := by
  unfold hexDistM dist2
  omega

theorem kRingBall_mem (o : AxPt) (k : ℕ) (p : AxPt) :
    p ∈ kRingBall o k ↔ hexDistM o p ≤ k := by
  unfold kRingBall
  rw [Finset.mem_filter, Finset.mem_product, Finset.mem_Icc, Finset.mem_Icc]
  constructor
  · rintro ⟨_, h⟩
    exact h
  · intro h
    have h2 := (hexDistM_le_iff o p k).mp h
    refine ⟨⟨⟨?_, ?_⟩, ?_, ?_⟩, h⟩ <;> omega

theorem rowCount (k : ℕ) (x : ℤ) (hx : x.natAbs ≤ k) :
    ((Finset.Icc (-(k : ℤ)) k).filter fun y => hexDistM (0, 0) (x, y) ≤ k).card =
      2 * k + 1 - x.natAbs := by
  have hset : ((Finset.Icc (-(k : ℤ)) k).filter fun y => hexDistM (0, 0) (x, y) ≤ k) =
      Finset.Icc (max (-(k : ℤ)) (-(k : ℤ) - x)) (min (k : ℤ) ((k : ℤ) - x)) := by
    ext y
    rw [Finset.mem_filter, Finset.mem_Icc, Finset.mem_Icc, hexDistM_le_iff, max_le_iff,
      le_min_iff]
    simp only []
    omega
  rw [hset, Int.card_Icc]
  rcases le_or_lt 0 x with h | h
  · rw [max_eq_left (by omega), min_eq_right (by omega)]
    omega
  · rw [max_eq_right (by omega), min_eq_left (by omega)]
    omega

theorem sumRows : ∀ k : ℕ,
    ((Finset.Icc (-(k : ℤ)) k).sum fun x => 2 * k + 1 - x.natAbs) = 3 * k ^ 2 + 3 * k + 1 := by
  intro k
  induction k with
  | zero => decide
  | succ k ih =>
      have hsplit : Finset.Icc (-((k : ℤ) + 1)) ((k : ℤ) + 1) =
          insert (-((k : ℤ) + 1)) (insert ((k : ℤ) + 1) (Finset.Icc (-(k : ℤ)) k)) := by
        ext y
        simp only [Finset.mem_Icc, Finset.mem_insert]
        omega
      have hn1 : (-((k : ℤ) + 1)) ∉ insert ((k : ℤ) + 1) (Finset.Icc (-(k : ℤ)) k) := by
        simp only [Finset.mem_insert, Finset.mem_Icc]
        omega
      have hn2 : ((k : ℤ) + 1) ∉ Finset.Icc (-(k : ℤ)) k := by
        simp only [Finset.mem_Icc]
        omega
      have hcast : ((k + 1 : ℕ) : ℤ) = (k : ℤ) + 1 := by push_cast; ring
      rw [hcast, hsplit, Finset.sum_insert hn1, Finset.sum_insert hn2]
      have hstep : ((Finset.Icc (-(k : ℤ)) k).sum fun x => 2 * (k + 1) + 1 - x.natAbs) =
          ((Finset.Icc (-(k : ℤ)) k).sum fun x => (2 * k + 1 - x.natAbs) + 2) := by
        refine Finset.sum_congr rfl fun x hx => ?_
        rw [Finset.mem_Icc] at hx
        have : x.natAbs ≤ k := by omega
        omega
      rw [hstep, Finset.sum_add_distrib, ih, Finset.sum_const, Int.card_Icc]
      have hcard : ((k : ℤ) + 1 - -(k : ℤ)).toNat = 2 * k + 1 := by omega
      rw [hcard]
      have habs1 : (-((k : ℤ) + 1)).natAbs = k + 1 := by omega
      have habs2 : ((k : ℤ) + 1).natAbs = k + 1 := by omega
      rw [habs1, habs2]
      have hsq : 3 * (k + 1) ^ 2 + 3 * (k + 1) + 1 = 3 * k ^ 2 + 3 * k + 1 + (6 * k + 6) := by
        ring
      rw [hsq]
      simp only [smul_eq_mul]
      omega

theorem ballCard_zero (k : ℕ) :
    (kRingBall ((0 : ℤ), (0 : ℤ)) k).card = 3 * k ^ 2 + 3 * k + 1 := by
  unfold kRingBall
  rw [Finset.card_filter, Finset.sum_product]
  simp only [zero_sub, zero_add]
  have hrow : ∀ x ∈ Finset.Icc (-(k : ℤ)) k,
      ((Finset.Icc (-(k : ℤ)) k).sum fun y => ite (hexDistM (0, 0) (x, y) ≤ k) 1 0) =
        2 * k + 1 - x.natAbs := by
    intro x hx
    rw [Finset.mem_Icc] at hx
    have habs : x.natAbs ≤ k := by omega
    rw [← Finset.card_filter, rowCount k x habs]
  rw [Finset.sum_congr rfl hrow, sumRows]

theorem ballCard (o : AxPt) (k : ℕ) :
    (kRingBall o k).card = 3 * k ^ 2 + 3 * k + 1 := by
  have hdist : ∀ x : AxPt, hexDistM ((0 : ℤ), (0 : ℤ)) x = hexDistM o (x.1 + o.1, x.2 + o.2) := by
    intro x
    unfold hexDistM dist2
    simp only []
    omega
  have himg : kRingBall o k =
      (kRingBall ((0 : ℤ), (0 : ℤ)) k).image fun p => (p.1 + o.1, p.2 + o.2) := by
    ext p
    rw [Finset.mem_image, kRingBall_mem]
    constructor
    · intro h
      refine ⟨(p.1 - o.1, p.2 - o.2), ?_, ?_⟩
      · rw [kRingBall_mem, hdist (p.1 - o.1, p.2 - o.2)]
        simp only []
        have : (p.1 - o.1 + o.1, p.2 - o.2 + o.2) = p := by
          refine Prod.ext ?_ ?_ <;> simp
        rwa [this]
      · refine Prod.ext ?_ ?_ <;> simp
    · rintro ⟨x, hx, rfl⟩
      rw [kRingBall_mem, hdist x] at hx
      exact hx
  have hinj : Function.Injective fun p : AxPt => (p.1 + o.1, p.2 + o.2) := by
    intro a b hab
    rw [Prod.ext_iff] at hab ⊢
    simp only [] at hab
    omega
  rw [himg, Finset.card_image_of_injective _ hinj, ballCard_zero]

theorem mem_intRangeList (a b y : ℤ) : y ∈ intRangeList a b ↔ a ≤ y ∧ y ≤ b := by
  unfold intRangeList
  rw [List.mem_map]
  constructor
  · rintro ⟨i, hi, rfl⟩
    rw [List.mem_range] at hi
    omega
  · intro h
    refine ⟨(y - a).toNat, ?_, by omega⟩
    rw [List.mem_range]
    omega

theorem intRangeList_nodup (a b : ℤ) : (intRangeList a b).Nodup := by
  unfold intRangeList
  refine List.Nodup.map ?_ (List.nodup_range _)
  intro i j hij
  simp only [add_right_inj, Nat.cast_inj] at hij
  exact hij

theorem squareList_mem (o : AxPt) (k : ℕ) (p : AxPt) :
    p ∈ squareList o k ↔
      (o.1 - k ≤ p.1 ∧ p.1 ≤ o.1 + k) ∧ (o.2 - k ≤ p.2 ∧ p.2 ≤ o.2 + k) := by
  unfold squareList
  simp only [List.mem_flatMap, List.mem_map, mem_intRangeList]
  constructor
  · rintro ⟨x, hx, y, hy, rfl⟩
    exact ⟨hx, hy⟩
  · rintro ⟨h1, h2⟩
    exact ⟨p.1, h1, p.2, h2, by refine Prod.ext ?_ ?_ <;> simp⟩

theorem squareList_nodup (o : AxPt) (k : ℕ) : (squareList o k).Nodup := by
  unfold squareList
  rw [List.nodup_flatMap]
  constructor
  · intro x _
    refine List.Nodup.map ?_ (intRangeList_nodup _ _)
    intro i j hij
    simpa using congrArg Prod.snd hij
  · refine (intRangeList_nodup _ _).pairwise_of_forall_ne ?_
    intro x _ y _ hxy
    intro p hp hq
    rw [List.mem_map] at hp hq
    obtain ⟨u, _, rfl⟩ := hp
    obtain ⟨v, _, hv⟩ := hq
    exact hxy (by simpa using (congrArg Prod.fst hv).symm)

theorem kRingListM_nodup (o : AxPt) (k : ℕ) : (kRingListM o k).Nodup :=
  (squareList_nodup o k).filter _

theorem kRingListM_toFinset (o : AxPt) (k : ℕ) :
    (kRingListM o k).toFinset = kRingBall o k := by
  ext p
  rw [List.mem_toFinset, kRingBall_mem]
  unfold kRingListM
  rw [List.mem_filter, squareList_mem]
  constructor
  · rintro ⟨_, h⟩
    exact of_decide_eq_true h
  · intro h
    have h2 := (hexDistM_le_iff o p k).mp h
    exact ⟨by constructor <;> constructor <;> omega, decide_eq_true h⟩

theorem kRingListM_length (o : AxPt) (k : ℕ) :
    (kRingListM o k).length = 3 * k ^ 2 + 3 * k + 1 := by
  rw [← List.toFinset_card_of_nodup (kRingListM_nodup o k), kRingListM_toFinset, ballCard]

theorem filterMap_id_map_some {α : Type} (l : List α) :
    (l.map some).filterMap id = l := by
  induction l with
  | nil => rfl
  | cons a t ih => simp [ih]

theorem filterMap_id_replicate_none {α : Type} (m : ℕ) :
    (List.replicate m (none : Option α)).filterMap id = [] := by
  induction m with
  | zero => rfl
  | succ m ih => simp [List.replicate_succ, ih]

theorem getKRingIndicesM_eq (o : AxPt) (k : ℕ) : getKRingIndicesM o k = kRingListM o k := by
  unfold getKRingIndicesM
  rw [List.filterMap_append, filterMap_id_map_some, filterMap_id_replicate_none,
    List.append_nil]

/-- C4: in the lattice model (a non-pentagon origin with no pentagon in
range), the wrapper's k-ring has exactly 3k^2+3k+1 cells and contains
the origin; for a pentagon origin at k = 1 the filtered buffer holds
exactly 6 cells (the five neighbors plus the origin). -/
theorem claim4_kring_sizes :
    (∀ (o : AxPt) (k : ℕ),
        (getKRingIndicesM o k).length = 3 * k ^ 2 + 3 * k + 1 ∧ o ∈ getKRingIndicesM o k) ∧
      getKRingPentagon1.length = 6 := by
  refine ⟨fun o k => ⟨?_, ?_⟩, by decide⟩
  · rw [getKRingIndicesM_eq, kRingListM_length]
  · rw [getKRingIndicesM_eq]
    unfold kRingListM
    rw [List.mem_filter, squareList_mem]
    refine ⟨by constructor <;> constructor <;> omega, decide_eq_true ?_⟩
    unfold hexDistM dist2
    omega

theorem hexRingListM_length_le (o : AxPt) (k : ℕ) :
    (hexRingListM o k).length ≤ 3 * k ^ 2 + 3 * k + 1 := by
  unfold hexRingListM
  calc ((kRingListM o k).filter fun p => decide (hexDistM o p = k)).length
      ≤ (kRingListM o k).length := List.length_filter_le _ _
    _ = 3 * k ^ 2 + 3 * k + 1 := kRingListM_length o k

/-- C5 evaluation: away from pentagon distortion `hex_ring` succeeds,
but the returned vector has `maxKringSize k` = 3k^2+3k+1 entries (the
ring cells followed by unwritten buffer slots) - never the 6k cells of
the hollow ring the spec requires for k > 0. -/
theorem claim5_hexring_returns_padded_buffer (o : AxPt) (k : ℕ) :
    ∃ buf, hexRingRs o k = .ok buf ∧ buf.length = 3 * k ^ 2 + 3 * k + 1 ∧
      buf.length ≠ 6 * k := by
  have hle := hexRingListM_length_le o k
  have hksq : k ≤ k ^ 2 := Nat.le_self_pow (by norm_num) k
  refine ⟨_, rfl, ?_, ?_⟩ <;>
    simp only [List.length_append, List.length_map, List.length_replicate, maxKringSize] <;>
    omega
